import Mathlib

/-!
Verification development for the Triggerfish trigger-based completion engine.

The completion handler (`should_trigger`, `parse_query`, `get_completions`,
`_to_completion_item`) and the server-side trigger routing are translated from
`src/triggerfish/completion_handler.py` and `src/triggerfish/server.py`.
The symbol index (`symbol_index.py`) and the configuration object
(`config.py`) are not part of the sources; they are modelled from the
specification, as marked on each such definition.

Strings are embedded as Lean `String` / `List Char`; Python float scores are
embedded as exact rationals `ℚ`; a 0-based character offset is a `Nat`.
-/

namespace Triggerfish

/-- Modelled from the spec: the closed symbol-kind enumeration of
`symbol_index.py` (missing from the sources): FILE, CLASS, METHOD, FUNCTION,
VARIABLE. -/
inductive SymbolKind : Type
  | FILE
  | CLASS
  | METHOD
  | FUNCTION
  | VARIABLE
deriving DecidableEq, Repr, Fintype

/-- Modelled from the spec: the string value of a kind (used by the detail
string built in `_to_completion_item`). -/
def SymbolKind.value : SymbolKind → String
  | .FILE => "file"
  | .CLASS => "class"
  | .METHOD => "method"
  | .FUNCTION => "function"
  | .VARIABLE => "variable"

/-- Modelled from the spec: the immutable `Symbol` value of `symbol_index.py`
(missing from the sources): name, kind, originating file path, 1-based line,
optional scope and language. -/
structure Symbol : Type where
  name : String
  kind : SymbolKind
  file_path : String
  line : Nat
  scope : Option String := none
  language : Option String := none
deriving DecidableEq, Repr

/-- Modelled from the spec: the external `CompletionItemKind` display category
(only the categories the server configures are needed). -/
inductive CompletionItemKind : Type
  | File
  | Class
  | Method
deriving DecidableEq, Repr

/-- The display item built by `CompletionHandler._to_completion_item`:
label, category, detail string, sort key and insertion text. -/
structure CompletionItem : Type where
  label : String
  kind : CompletionItemKind
  detail : String
  sort_text : String
  insert_text : String
deriving DecidableEq, Repr

/-- Modelled from the spec: the configuration surface consumed by the core
(`config.py` is missing from the sources): `max_completion_items : int > 0`
and `min_fuzzy_score : float >= 0`. -/
structure TriggerfishConfig : Type where
  max_completion_items : Nat
  min_fuzzy_score : ℚ

/-- Modelled from the spec: the mutable symbol index of `symbol_index.py`
(missing from the sources).  Conceptually a mapping from kind to an ordered
collection of symbols; each stored entry also carries the path it is
attributed to (the per-file membership used for replacement). -/
structure SymbolIndex : Type where
  byKind : SymbolKind → List (String × Symbol)

/-- Modelled from the spec: the index is created empty at server start. -/
def SymbolIndex.empty : SymbolIndex := ⟨fun _ => []⟩

/-- Modelled from the spec: `add_symbols` appends to the store grouped by
kind, preserving insertion order within a kind; each symbol is attributed to
its own `file_path`. -/
def SymbolIndex.add_symbols (idx : SymbolIndex) (symbols : List Symbol) : SymbolIndex :=
  ⟨fun k => idx.byKind k ++ (symbols.filter (fun s => s.kind = k)).map (fun s => (s.file_path, s))⟩

/-- Modelled from the spec: `update_file` atomically replaces all symbols
previously attributed to `path` (regardless of kind) with the new sequence,
which becomes attributed to `path`. -/
def SymbolIndex.update_file (idx : SymbolIndex) (path : String) (symbols : List Symbol) :
    SymbolIndex :=
  ⟨fun k =>
    (idx.byKind k).filter (fun e => e.1 ≠ path) ++
      (symbols.filter (fun s => s.kind = k)).map (fun s => (path, s))⟩

/-- Modelled from the spec: `get_symbols(kind)` returns all symbols of one
kind, in insertion order, with no filtering or scoring. -/
def SymbolIndex.get_symbols (idx : SymbolIndex) (kind : SymbolKind) : List Symbol :=
  (idx.byKind kind).map Prod.snd

/-- The symbols of a given kind currently attributed to `path` (the per-file
membership view of the index, in insertion order). -/
def SymbolIndex.attributedTo (idx : SymbolIndex) (path : String) (kind : SymbolKind) :
    List Symbol :=
  ((idx.byKind kind).filter (fun e => e.1 = path)).map Prod.snd

/-- An index is well formed when every entry stored under a kind bucket is a
symbol of that kind (all indices reachable through `add_symbols` /
`update_file` are). -/
def SymbolIndex.WF (idx : SymbolIndex) : Prop :=
  ∀ k : SymbolKind, ∀ e ∈ idx.byKind k, (Prod.snd e).kind = k

/-- Modelled from the spec: case folding of a name or query for the
case-insensitive fuzzy match (Python `str.lower()` on the relevant ASCII
range). -/
def toLowerList (s : List Char) : List Char := s.map Char.toLower

/-- Modelled from the spec: the greedy leftmost subsequence match.  Returns
the 0-based positions (offset by `i`) in `cs` at which the successive
characters of `qs` occur in order, or `none` when `qs` is not a subsequence
of `cs`. -/
def matchPositions (qs : List Char) (cs : List Char) (i : Nat) : Option (List Nat) :=
  match qs, cs with
  | [], _ => some []
  | _ :: _, [] => none
  | q :: qs', c :: cs' =>
    if q = c then (matchPositions qs' cs' (i + 1)).map (fun ps => i :: ps)
    else matchPositions (q :: qs') cs' (i + 1)

/-- The number of contiguous runs in an increasing list of match positions
(adjacent positions that differ by one belong to one run). -/
def runCount : List Nat → Nat
  | [] => 0
  | [_] => 1
  | a :: b :: t => (if b = a + 1 then 0 else 1) + runCount (b :: t)

/-- Modelled from the spec: whether position `p` of `nm` starts at a word
boundary — the start of the name, or after `_`, `.`, `/`, or a lower-to-upper
case transition. -/
def isWordBoundary (nm : List Char) : Nat → Bool
  | 0 => true
  | p + 1 =>
    match nm[p]?, nm[p + 1]? with
    | some prev, some cur =>
      prev == '_' || prev == '.' || prev == '/' || (prev.isLower && cur.isUpper)
    | _, _ => false

/-- Modelled from the spec: the numeric value of a fuzzy score from its match
statistics — a base of 30 for matching at all, 30 more for an exact
case-insensitive prefix match, up to 20 for few contiguous runs of matched
characters, 10 for a match starting at a word boundary, and up to 10 for
compactness (the ratio of the query length `L` to the span of the match). -/
def scoreValue (startB : Bool) (boundB : Bool) (L runs span : Nat) : ℚ :=
  30 + (if startB then (30 : ℚ) else 0)
    + 20 * ((L - runs : Nat) : ℚ) / ((max (L - 1) 1 : Nat) : ℚ)
    + (if boundB then (10 : ℚ) else 0)
    + 10 * (L : ℚ) / ((span : Nat) : ℚ)

/-- Modelled from the spec: the fuzzy score of `name` against a non-empty
`query`.  A name matches when the case-folded query occurs in the case-folded
name as an order-preserving subsequence (matched greedily leftmost); a
non-match — and the degenerate empty query — yields `none`.  The score weighs
prefix match, contiguity, word-boundary alignment and compactness as in
`scoreValue`; all produced scores lie in `[0, 100]`. -/
def fuzzy_score (query : List Char) (name : List Char) : Option ℚ :=
  match matchPositions (toLowerList query) (toLowerList name) 0 with
  | none => none
  | some [] => none
  | some (p0 :: rest) =>
    some (scoreValue
      (decide ((toLowerList name).take query.length = toLowerList query))
      (isWordBoundary name p0) query.length (runCount (p0 :: rest))
      ((p0 :: rest).getLast (List.cons_ne_nil p0 rest) - p0 + 1))

/-- Descending comparison by a rational key: `a` may precede `b` when the key
of `b` is at most the key of `a`.  A stable sort with this relation models
Python's stable `list.sort(key=..., reverse=True)`. -/
def keyGE {α : Type} (key : α → ℚ) (a b : α) : Prop := key b ≤ key a

instance {α : Type} (key : α → ℚ) : DecidableRel (keyGE key) := fun a b =>
  inferInstanceAs (Decidable (key b ≤ key a))

instance {α : Type} (key : α → ℚ) : IsTotal α (keyGE key) :=
  ⟨fun a b => le_total (key b) (key a)⟩

instance {α : Type} (key : α → ℚ) : IsTrans α (keyGE key) :=
  ⟨fun _ _ _ h1 h2 => le_trans h2 h1⟩

/-- Modelled from the spec: the candidates of one kind for a query, scored,
each paired with its insertion position within the kind (the position in
`get_symbols kind`), before filtering and ranking. -/
def scoredCandidates (idx : SymbolIndex) (query : List Char) (kind : SymbolKind) :
    List (Nat × Symbol × ℚ) :=
  (idx.get_symbols kind).enum.filterMap
    (fun p => (fuzzy_score query p.2.name.data).map (fun sc => (p.1, p.2, sc)))

/-- Modelled from the spec: `fuzzy_search` with the insertion positions kept —
candidates of the kind scored against the query, filtered by `min_score`,
stably sorted by descending score (ties keep insertion order) and truncated to
`limit`. -/
def fuzzySearchRanked (idx : SymbolIndex) (query : List Char) (kind : SymbolKind)
    (limit : Nat) (min_score : ℚ) : List (Nat × Symbol × ℚ) :=
  (List.insertionSort (keyGE (fun t => t.2.2))
    ((scoredCandidates idx query kind).filter (fun t => min_score ≤ t.2.2))).take limit

/-- Modelled from the spec: `fuzzy_search(query, kind, limit, min_score)` of
`symbol_index.py` (missing from the sources) — the `(Symbol, score)` pairs of
`fuzzySearchRanked` without the internal insertion positions. -/
def SymbolIndex.fuzzy_search (idx : SymbolIndex) (query : List Char) (kind : SymbolKind)
    (limit : Nat) (min_score : ℚ) : List (Symbol × ℚ) :=
  (fuzzySearchRanked idx query kind limit min_score).map (fun t => t.2)

/-- The `CompletionHandler` of `completion_handler.py`: one instance per
(trigger character, eligible kinds, display category) triple, sharing one
symbol index and the configuration. -/
structure CompletionHandler : Type where
  symbol_index : SymbolIndex
  config : TriggerfishConfig
  trigger : Char
  symbol_kinds : List SymbolKind
  completion_kind : CompletionItemKind

/-- Python `line.rfind(trigger, 0, stop)` for a single-character needle on the
character list of the line: the largest index `i < stop` (and within the
line) with `line[i] = c`, or `none`.  The recursion prefers an occurrence in
the tail, which carries the larger index. -/
def rfind (line : List Char) (c : Char) (stop : Nat) : Option Nat :=
  match line, stop with
  | [], _ => none
  | _ :: _, 0 => none
  | ch :: rest, s + 1 =>
    match rfind rest c s with
    | some j => some (j + 1)
    | none => if ch = c then some 0 else none

/-- Python `str.isspace()` for a single character: true exactly on the Unicode
whitespace set — 0x09-0x0D (tab, LF, VT, FF, CR), 0x1C-0x1F (the separator
controls), space, NEL (0x85), NBSP (0xA0), Ogham space (0x1680),
0x2000-0x200A, line/paragraph separator (0x2028, 0x2029), narrow no-break
space (0x202F), medium mathematical space (0x205F) and ideographic space
(0x3000). -/
def pyIsSpace (c : Char) : Bool :=
  let n := c.toNat
  (0x09 ≤ n && n ≤ 0x0d) || (0x1c ≤ n && n ≤ 0x1f) || n == 0x20 || n == 0x85 ||
    n == 0xa0 || n == 0x1680 || (0x2000 ≤ n && n ≤ 0x200a) || n == 0x2028 ||
    n == 0x2029 || n == 0x202f || n == 0x205f || n == 0x3000

/-- `CompletionHandler.should_trigger`: `line.rfind(self._trigger, 0, character) != -1`. -/
def should_trigger (h : CompletionHandler) (line : List Char) (character : Nat) : Bool :=
  (rfind line h.trigger character).isSome

/-- `CompletionHandler.parse_query`: the substring between the last trigger
occurrence before the cursor (exclusive) and the cursor; `some []` when that
substring is empty, `none` when there is no trigger occurrence or the
substring contains a character of Python's whitespace set (`pyIsSpace`). -/
def parse_query (h : CompletionHandler) (line : List Char) (character : Nat) :
    Option (List Char) :=
  match rfind line h.trigger character with
  | none => none
  | some trigger_index =>
    let query := (line.take character).drop (trigger_index + 1)
    if query = [] then some []
    else if query.any pyIsSpace then none
    else some query

/-- The `all_matches` list built inside `CompletionHandler.get_completions`:
empty on parse failure; all symbols of the eligible kinds with score 0
(truncated to `max_completion_items`) for the empty query; otherwise the
per-kind `fuzzy_search` results concatenated, stably sorted by descending
score and truncated to `max_completion_items`. -/
def allMatches (h : CompletionHandler) (line : List Char) (character : Nat) :
    List (Symbol × ℚ) :=
  match parse_query h line character with
  | none => []
  | some q =>
    if q = [] then
      ((h.symbol_kinds.flatMap (fun k => h.symbol_index.get_symbols k)).map
        (fun s => (s, (0 : ℚ)))).take h.config.max_completion_items
    else
      (List.insertionSort (keyGE Prod.snd)
        (h.symbol_kinds.flatMap (fun k =>
          h.symbol_index.fuzzy_search q k h.config.max_completion_items
            h.config.min_fuzzy_score))).take h.config.max_completion_items

/-- Python `int()` on a rational: truncation toward zero
(`Int.tdiv` truncates toward zero). -/
def pyInt (q : ℚ) : Int := q.num.tdiv q.den

/-- Python percent-03d formatting of an integer: decimal rendering zero-padded
to width 3 (a negative value keeps its sign and pads the magnitude to width 2). -/
def format03d (n : Int) : String :=
  if n < 0 then
    "-" ++ ⟨List.replicate (2 - (Nat.repr n.natAbs).length) '0'⟩ ++ Nat.repr n.natAbs
  else
    ⟨List.replicate (3 - (Nat.repr n.natAbs).length) '0'⟩ ++ Nat.repr n.natAbs

/-- `CompletionHandler._to_completion_item`: label and insertion text are the
symbol's name, the detail string combines kind and location, and the sort key
renders 100 - int(score) zero-padded to width 3. -/
def to_completion_item (h : CompletionHandler) (symbol : Symbol) (score : ℚ) :
    CompletionItem :=
  ⟨symbol.name, h.completion_kind,
    symbol.kind.value ++ " at " ++ symbol.file_path ++ ":" ++ Nat.repr symbol.line,
    format03d (100 - pyInt score), symbol.name⟩

/-- `CompletionHandler.get_completions`: the `all_matches` pipeline rendered
through `_to_completion_item`. -/
def get_completions (h : CompletionHandler) (line : List Char) (character : Nat) :
    List CompletionItem :=
  (allMatches h line character).map (fun p => to_completion_item h p.1 p.2)

/-- The `@`-trigger FILE handler configured in `TriggerfishLanguageServer.__init__`. -/
def file_completion (idx : SymbolIndex) (config : TriggerfishConfig) : CompletionHandler :=
  ⟨idx, config, '@', [SymbolKind.FILE], CompletionItemKind.File⟩

/-- The `.`-trigger CLASS handler configured in `TriggerfishLanguageServer.__init__`. -/
def class_completion (idx : SymbolIndex) (config : TriggerfishConfig) : CompletionHandler :=
  ⟨idx, config, '.', [SymbolKind.CLASS], CompletionItemKind.Class⟩

/-- The `#`-trigger METHOD/FUNCTION handler configured in
`TriggerfishLanguageServer.__init__`. -/
def method_completion (idx : SymbolIndex) (config : TriggerfishConfig) : CompletionHandler :=
  ⟨idx, config, '#', [SymbolKind.METHOD, SymbolKind.FUNCTION], CompletionItemKind.Method⟩

/-- The handler priority list of `TriggerfishLanguageServer._completion`:
file trigger, then class trigger, then method trigger. -/
def serverHandlers (idx : SymbolIndex) (config : TriggerfishConfig) :
    List CompletionHandler :=
  [file_completion idx config, class_completion idx config, method_completion idx config]

/-- The dispatch loop of `TriggerfishLanguageServer._completion`: the first
handler whose `should_trigger` holds answers the request; later handlers are
not consulted; no firing handler yields the empty list. -/
def routeCompletion : List CompletionHandler → List Char → Nat → List CompletionItem
  | [], _, _ => []
  | h :: rest, line, character =>
    if should_trigger h line character then get_completions h line character
    else routeCompletion rest line character

/-- Stable descending order with positions: `b` scores at most `a`, and on
equal scores `a` sits at a strictly earlier position than `b`. -/
def rankedRel {α : Type} (key : α → ℚ) (pos : α → Nat) (a b : α) : Prop :=
  key b ≤ key a ∧ (key a = key b → pos a < pos b)

/-- A small concrete index used by the witness theorems. -/
def wIdx : SymbolIndex :=
  SymbolIndex.empty.add_symbols
    [⟨"utils.py", .FILE, "/tmp/utils.py", 1, none, none⟩,
     ⟨"u_t_i_l_x.py", .FILE, "/tmp/u_t_i_l_x.py", 1, none, none⟩,
     ⟨"main.py", .FILE, "/tmp/main.py", 1, none, none⟩,
     ⟨"MyClass", .CLASS, "/tmp/main.py", 10, none, none⟩,
     ⟨"my_function", .FUNCTION, "/tmp/utils.py", 20, none, none⟩,
     ⟨"save_data", .METHOD, "/tmp/db.py", 25, none, none⟩]

/-- A concrete configuration used by the witness theorems. -/
def wCfg : TriggerfishConfig := ⟨50, 30⟩

/-- The concrete `@`/FILE handler used by the witness theorems. -/
def wFile : CompletionHandler := file_completion wIdx wCfg

/-- The concrete `#`/METHOD+FUNCTION handler used by the witness theorems. -/
def wMethod : CompletionHandler := method_completion wIdx wCfg

lemma WF_empty : SymbolIndex.empty.WF := by
  intro k e he
  simp [SymbolIndex.empty] at he

lemma WF_add_symbols {idx : SymbolIndex} (h : idx.WF) (symbols : List Symbol) :
    (idx.add_symbols symbols).WF := by
  intro k e he
  rw [SymbolIndex.add_symbols, List.mem_append] at he
  rcases he with he | he
  · exact h k e he
  · rw [List.mem_map] at he
    obtain ⟨s, hs, rfl⟩ := he
    simpa using List.of_mem_filter hs

lemma WF_update_file {idx : SymbolIndex} (h : idx.WF) (path : String)
    (symbols : List Symbol) : (idx.update_file path symbols).WF := by
  intro k e he
  rw [SymbolIndex.update_file, List.mem_append] at he
  rcases he with he | he
  · exact h k e (List.mem_of_mem_filter he)
  · rw [List.mem_map] at he
    obtain ⟨s, hs, rfl⟩ := he
    simpa using List.of_mem_filter hs

lemma rfind_none_iff (ln : List Char) (c : Char) (stop : Nat) :
    rfind ln c stop = none ↔ ∀ i, i < stop → ln[i]? ≠ some c := by
  induction ln generalizing stop with
  | nil => simp [rfind]
  | cons ch rest ih =>
    cases stop with
    | zero => simp [rfind]
    | succ s =>
      rw [rfind]
      cases hr : rfind rest c s with
      | some j =>

        constructor
        · intro h; exact absurd h (by simp)
        · intro hall
          have : ¬ (∀ i, i < s → rest[i]? ≠ some c) := by
            rw [← ih]; simp [hr]
          push_neg at this
          obtain ⟨i, his, hic⟩ := this
          exact absurd (by simpa using hic) (hall (i + 1) (by omega))
      | none =>

        by_cases hch : ch = c
        · rw [if_pos hch]
          constructor
          · intro h; exact absurd h (by simp)
          · intro hall
            exact absurd (by simp [hch] : (ch :: rest)[0]? = some c)
              (hall 0 (Nat.succ_pos s))
        · rw [if_neg hch]
          constructor
          · intro _ i hi
            cases i with
            | zero => simp [hch]
            | succ j =>
              simpa using (ih s).mp hr j (by omega)
          · intro _; rfl

lemma rfind_eq_some_of (ln : List Char) (c : Char) (stop t : Nat)
    (ht : t < stop) (hc : ln[t]? = some c)
    (hlast : ∀ j, j < stop → t < j → ln[j]? ≠ some c) :
    rfind ln c stop = some t := by
  induction ln generalizing stop t with
  | nil => simp at hc
  | cons ch rest ih =>
    cases stop with
    | zero => omega
    | succ s =>
      rw [rfind]
      cases t with
      | zero =>
        have hch : ch = c := by simpa using hc
        have hnone : rfind rest c s = none := by
          rw [rfind_none_iff]
          intro i hi
          simpa using hlast (i + 1) (by omega) (Nat.succ_pos i)
        rw [hnone]
        simp [hch]
      | succ u =>
        have hrec : rfind rest c s = some u := by
          refine ih s u (by omega) (by simpa using hc) ?_
          intro j hjs hj
          simpa using hlast (j + 1) (by omega) (by omega)
        rw [hrec]

/-- Claim C7: `should_trigger(line, cursor)` returns true iff the engine's trigger
character appears anywhere in the line at a position before the cursor. -/
theorem should_trigger_iff_trigger_before_cursor (h : CompletionHandler)
    (ln : List Char) (character : Nat) :
    should_trigger h ln character = true ↔
      ∃ i, i < character ∧ ln[i]? = some h.trigger := by
  rw [should_trigger, Option.isSome_iff_ne_none, ne_eq, rfind_none_iff]
  push_neg
  simp

/-- Claim C4: `parse_query` reports failure when no trigger occurrence precedes the
cursor; when `t` is the last such occurrence it returns the substring between
`t` (exclusive) and the cursor — the empty query when that substring is empty
(in particular when the trigger sits immediately at the cursor), failure when
the substring contains whitespace, and the substring itself otherwise. -/
theorem parse_query_locates_last_trigger (h : CompletionHandler)
    (ln : List Char) (character : Nat) :
    ((∀ i, i < character → ln[i]? ≠ some h.trigger) →
      parse_query h ln character = none)
    ∧ (∀ t, t < character → ln[t]? = some h.trigger →
        (∀ j, j < character → t < j → ln[j]? ≠ some h.trigger) →
        parse_query h ln character =
          (if (ln.take character).drop (t + 1) = [] then some []
           else if ((ln.take character).drop (t + 1)).any pyIsSpace then none
           else some ((ln.take character).drop (t + 1))))
    ∧ (∀ t, t + 1 = character → ln[t]? = some h.trigger →
        parse_query h ln character = some []) := by
  refine ⟨?_, ?_, ?_⟩
  · intro hno
    simp [parse_query, (rfind_none_iff ln h.trigger character).mpr hno]
  · intro t ht hc hlast
    simp [parse_query, rfind_eq_some_of ln h.trigger character t ht hc hlast]
  · intro t hteq hc
    have hlast : ∀ j, j < character → t < j → ln[j]? ≠ some h.trigger := by
      intro j hj hj2; omega
    have hnil : (ln.take character).drop (t + 1) = [] := by
      refine List.drop_eq_nil_of_le ?_
      rw [List.length_take]
      omega
    simp [parse_query, rfind_eq_some_of ln h.trigger character t (by omega) hc hlast, hnil]

/-- Claim C8: whenever no trigger character precedes the cursor
(including a cursor beyond the line length), `should_trigger` is false,
`parse_query` fails, and `get_completions` returns the empty sequence; all
three operations are total Lean functions, so they return normally on every
input. -/
theorem completions_empty_without_trigger (h : CompletionHandler)
    (ln : List Char) (character : Nat)
    (hno : ∀ i, i < character → ln[i]? ≠ some h.trigger) :
    should_trigger h ln character = false ∧ parse_query h ln character = none ∧
      get_completions h ln character = [] := by
  have hr : rfind ln h.trigger character = none :=
    (rfind_none_iff ln h.trigger character).mpr hno
  exact ⟨by simp [should_trigger, hr], by simp [parse_query, hr],
    by simp [get_completions, allMatches, parse_query, hr]⟩

/-- Claim C5: the server's completion dispatch consults the configured handlers in
the fixed declared order — file trigger `@`, then class trigger `.`, then
method trigger `#` — and the first handler whose `should_trigger` holds
produces the whole answer; later handlers are never reached. -/
theorem completion_routed_to_first_triggering_handler (idx : SymbolIndex)
    (config : TriggerfishConfig) (ln : List Char) (character : Nat) :
    routeCompletion (serverHandlers idx config) ln character =
      if should_trigger (file_completion idx config) ln character then
        get_completions (file_completion idx config) ln character
      else if should_trigger (class_completion idx config) ln character then
        get_completions (class_completion idx config) ln character
      else if should_trigger (method_completion idx config) ln character then
        get_completions (method_completion idx config) ln character
      else [] := rfl

/-- Claim C3: after `update_file(path, symbols)` the symbols attributed to `path`
(in every kind bucket) are exactly the supplied ones, and the symbols
attributed to every other path are unchanged. -/
theorem update_file_replaces_path_symbols (idx : SymbolIndex) (path : String)
    (symbols : List Symbol) :
    (∀ k, (idx.update_file path symbols).attributedTo path k =
        symbols.filter (fun s => s.kind = k))
    ∧ (∀ q, q ≠ path → ∀ k, (idx.update_file path symbols).attributedTo q k =
        idx.attributedTo q k) := by
  constructor
  · intro k
    simp [SymbolIndex.update_file, SymbolIndex.attributedTo, List.filter_append,
      List.filter_filter, List.filter_map, Function.comp]
  · intro q hq k
    simp only [SymbolIndex.update_file, SymbolIndex.attributedTo, List.filter_append,
      List.filter_filter, List.filter_map, Function.comp]
    have h1 : ∀ e : String × Symbol,
        (decide (e.1 = q) && decide (e.1 ≠ path)) = decide (e.1 = q) := by
      intro e
      by_cases he : e.1 = q
      · simp [he, hq]
      · simp [he]
    rw [List.filter_congr (fun e _ => h1 e)]
    simp [Ne.symm hq]

/-- Witness for the C4 theorem at a concrete line and cursor. -/
theorem parse_query_locates_last_trigger_witness :
    ("a@bc".data[1]? = some '@') ∧ parse_query wFile ("a@bc".data) 3 = some ['b'] :=
  ⟨by decide, by
    rw [(parse_query_locates_last_trigger wFile ("a@bc".data) 3).2.1 1 (by decide)
      (by decide) (by decide)]
    decide⟩

/-- Witness for the C8 theorem: a cursor far beyond the line length and a line
without the trigger character. -/
theorem completions_empty_without_trigger_witness :
    should_trigger wFile ("hello".data) 100 = false ∧
      parse_query wFile ("hello".data) 100 = none ∧
      get_completions wFile ("hello".data) 100 = [] :=
  completions_empty_without_trigger wFile ("hello".data) 100 (by decide)

/-- Witness for the C3 theorem: updating one path leaves another path's
symbols untouched. -/
theorem update_file_replaces_path_symbols_witness :
    (("/tmp/other.py" : String) ≠ "/tmp/utils.py") ∧
      ((wIdx.update_file "/tmp/utils.py" []).attributedTo "/tmp/other.py"
          SymbolKind.CLASS =
        wIdx.attributedTo "/tmp/other.py" SymbolKind.CLASS) :=
  ⟨by decide, (update_file_replaces_path_symbols wIdx "/tmp/utils.py" []).2
    "/tmp/other.py" (by decide) SymbolKind.CLASS⟩

lemma matchPositions_length : ∀ (cs qs : List Char) (i : Nat) (ps : List Nat),
    matchPositions qs cs i = some ps → ps.length = qs.length := by
  intro cs
  induction cs with
  | nil =>
    intro qs i ps h
    cases qs with
    | nil => simp only [matchPositions, Option.some.injEq] at h; simp [← h]
    | cons q qs' => simp [matchPositions] at h
  | cons c cs' ih =>
    intro qs i ps h
    cases qs with
    | nil => simp only [matchPositions, Option.some.injEq] at h; simp [← h]
    | cons q qs' =>
      rw [matchPositions] at h
      by_cases hqc : q = c
      · rw [if_pos hqc] at h
        cases hmp : matchPositions qs' cs' (i + 1) with
        | none => rw [hmp] at h; simp at h
        | some ps' =>
          rw [hmp] at h
          simp only [Option.map_some', Option.some.injEq] at h
          subst h
          simp [ih qs' (i + 1) ps' hmp]
      · rw [if_neg hqc] at h
        exact (ih (q :: qs') (i + 1) ps h).trans rfl

lemma matchPositions_chain : ∀ (cs qs : List Char) (i : Nat) (ps : List Nat),
    matchPositions qs cs i = some ps →
    List.Chain' (· < ·) ps ∧ ∀ x ∈ ps, i ≤ x := by
  intro cs
  induction cs with
  | nil =>
    intro qs i ps h
    cases qs with
    | nil => simp only [matchPositions, Option.some.injEq] at h; simp [← h]
    | cons q qs' => simp [matchPositions] at h
  | cons c cs' ih =>
    intro qs i ps h
    cases qs with
    | nil => simp only [matchPositions, Option.some.injEq] at h; simp [← h]
    | cons q qs' =>
      rw [matchPositions] at h
      by_cases hqc : q = c
      · rw [if_pos hqc] at h
        cases hmp : matchPositions qs' cs' (i + 1) with
        | none => rw [hmp] at h; simp at h
        | some ps' =>
          rw [hmp] at h
          simp only [Option.map_some', Option.some.injEq] at h
          subst h
          obtain ⟨hch, hge⟩ := ih qs' (i + 1) ps' hmp
          constructor
          · exact List.chain'_cons'.2
              ⟨fun b hb => Nat.lt_of_lt_of_le (Nat.lt_succ_self i)
                (hge b (List.mem_of_mem_head? hb)), hch⟩
          · intro x hx
            rcases List.mem_cons.mp hx with rfl | hx'
            · exact le_refl x
            · exact Nat.le_of_succ_le (hge x hx')
      · rw [if_neg hqc] at h
        obtain ⟨hch, hge⟩ := ih (q :: qs') (i + 1) ps h
        exact ⟨hch, fun x hx => Nat.le_of_succ_le (hge x hx)⟩

lemma chain_lt_getLast : ∀ (t : List Nat) (a g : Nat),
    List.Chain' (· < ·) (a :: t) → (a :: t).getLast? = some g →
    a + t.length ≤ g := by
  intro t
  induction t with
  | nil =>
    intro a g _ hg
    simp only [List.getLast?_singleton, Option.some.injEq] at hg
    simp [hg]
  | cons b t' ih =>
    intro a g hch hg
    rw [List.getLast?_cons_cons] at hg
    have hab : a < b := (List.chain'_cons.mp hch).1
    have hb := ih b g (List.chain'_cons.mp hch).2 hg
    simp only [List.length_cons]
    omega

lemma runCount_pos : ∀ (t : List Nat) (a : Nat), 1 ≤ runCount (a :: t) := by
  intro t
  induction t with
  | nil => intro a; simp [runCount]
  | cons b t' ih =>
    intro a
    have := ih b
    simp only [runCount]
    split <;> omega

lemma scoreValue_nonneg_le (startB boundB : Bool) (L runs span : Nat)
    (hruns : 1 ≤ runs) (hspan : 1 ≤ span) (hLspan : L ≤ span) :
    0 ≤ scoreValue startB boundB L runs span ∧
      scoreValue startB boundB L runs span ≤ 100 := by
  have hM : (0 : ℚ) < ((max (L - 1) 1 : Nat) : ℚ) := by
    have : 1 ≤ max (L - 1) 1 := le_max_right _ _
    exact_mod_cast Nat.lt_of_lt_of_le Nat.zero_lt_one this
  have hS : (0 : ℚ) < ((span : Nat) : ℚ) := by
    exact_mod_cast Nat.lt_of_lt_of_le Nat.zero_lt_one hspan
  have h2 : 20 * ((L - runs : Nat) : ℚ) / ((max (L - 1) 1 : Nat) : ℚ) ≤ 20 := by
    rw [div_le_iff₀ hM]
    have hle : ((L - runs : Nat) : ℚ) ≤ ((max (L - 1) 1 : Nat) : ℚ) := by
      have : L - runs ≤ max (L - 1) 1 := le_trans (by omega) (le_max_left _ _)
      exact_mod_cast this
    nlinarith
  have h4 : 10 * (L : ℚ) / ((span : Nat) : ℚ) ≤ 10 := by
    rw [div_le_iff₀ hS]
    have hle : ((L : Nat) : ℚ) ≤ ((span : Nat) : ℚ) := by exact_mod_cast hLspan
    nlinarith
  have h2n : 0 ≤ 20 * ((L - runs : Nat) : ℚ) / ((max (L - 1) 1 : Nat) : ℚ) := by
    apply div_nonneg _ (le_of_lt hM)
    positivity
  have h4n : 0 ≤ 10 * (L : ℚ) / ((span : Nat) : ℚ) := by
    apply div_nonneg _ (le_of_lt hS)
    positivity
  have h1 : (if startB then (30 : ℚ) else 0) ≤ 30 := by split <;> norm_num
  have h1n : (0 : ℚ) ≤ (if startB then (30 : ℚ) else 0) := by split <;> norm_num
  have h3 : (if boundB then (10 : ℚ) else 0) ≤ 10 := by split <;> norm_num
  have h3n : (0 : ℚ) ≤ (if boundB then (10 : ℚ) else 0) := by split <;> norm_num
  rw [scoreValue]
  constructor <;> linarith

lemma fuzzy_score_bounds {q nm : List Char} {sc : ℚ}
    (h : fuzzy_score q nm = some sc) : 0 ≤ sc ∧ sc ≤ 100 := by
  rw [fuzzy_score] at h
  cases hmp : matchPositions (toLowerList q) (toLowerList nm) 0 with
  | none => rw [hmp] at h; simp at h
  | some ps =>
    cases ps with
    | nil => rw [hmp] at h; simp at h
    | cons p0 rest =>
      rw [hmp] at h
      simp only [Option.some.injEq] at h
      subst h
      have hlen := matchPositions_length _ _ _ _ hmp
      have hchain := (matchPositions_chain _ _ _ _ hmp).1
      have hlast : p0 + rest.length ≤
          (p0 :: rest).getLast (List.cons_ne_nil p0 rest) := by
        exact chain_lt_getLast rest p0 _ hchain
          (List.getLast?_eq_getLast _ (List.cons_ne_nil p0 rest))
      have hq : q.length = rest.length + 1 := by
        have := hlen
        simp only [List.length_cons, toLowerList, List.length_map] at this
        omega
      apply scoreValue_nonneg_le
      · exact runCount_pos rest p0
      · omega
      · omega

lemma orderedInsert_rankedRel {α : Type} (key : α → ℚ) (pos : α → Nat) (x : α) :
    ∀ (l : List α), (∀ y ∈ l, pos x < pos y) → l.Pairwise (rankedRel key pos) →
    (l.orderedInsert (keyGE key) x).Pairwise (rankedRel key pos) := by
  intro l
  induction l with
  | nil => intro _ _; simp [List.orderedInsert]
  | cons y ys ih =>
    intro hx hl
    rw [List.orderedInsert]
    by_cases hc : keyGE key x y
    · rw [if_pos hc]
      refine List.pairwise_cons.2 ⟨?_, hl⟩
      intro z hz
      rcases List.mem_cons.mp hz with rfl | hz'
      · exact ⟨hc, fun _ => hx z (List.mem_cons_self z ys)⟩
      · have hyz : rankedRel key pos y z := (List.pairwise_cons.mp hl).1 z hz'
        exact ⟨le_trans hyz.1 hc, fun _ => hx z (List.mem_cons_of_mem y hz')⟩
    · rw [if_neg hc]
      have hxy : key x < key y := lt_of_not_le (by simpa [keyGE] using hc)
      refine List.pairwise_cons.2
        ⟨?_, ih (fun y' hy' => hx y' (List.mem_cons_of_mem y hy'))
          (List.pairwise_cons.mp hl).2⟩
      intro z hz
      rcases (List.mem_orderedInsert (keyGE key)).mp hz with rfl | hz'
      · exact ⟨le_of_lt hxy, fun he => absurd he (ne_of_gt hxy)⟩
      · exact (List.pairwise_cons.mp hl).1 z hz'

lemma insertionSort_rankedRel {α : Type} (key : α → ℚ) (pos : α → Nat) :
    ∀ (l : List α), l.Pairwise (fun a b => pos a < pos b) →
    (l.insertionSort (keyGE key)).Pairwise (rankedRel key pos) := by
  intro l
  induction l with
  | nil => intro _; simp [List.insertionSort]
  | cons a l ih =>
    intro hl
    rw [List.insertionSort]
    apply orderedInsert_rankedRel
    · intro y hy
      exact (List.pairwise_cons.mp hl).1 y ((List.mem_insertionSort _).mp hy)
    · exact ih (List.pairwise_cons.mp hl).2

lemma orderedInsert_filter_key {α : Type} (key : α → ℚ) (c : ℚ) (x : α) :
    ∀ (l : List α),
    (l.orderedInsert (keyGE key) x).filter (fun a => key a = c) =
      if key x = c then x :: l.filter (fun a => key a = c)
      else l.filter (fun a => key a = c) := by
  intro l
  induction l with
  | nil =>
    by_cases hxc : key x = c <;> simp [List.orderedInsert, List.filter_cons, hxc]
  | cons y ys ih =>
    by_cases hc : keyGE key x y
    · rw [List.orderedInsert, if_pos hc]
      by_cases hxc : key x = c <;> simp [List.filter_cons, hxc]
    · rw [List.orderedInsert, if_neg hc]
      have hxy : key x < key y := lt_of_not_le (by simpa [keyGE] using hc)
      by_cases hxc : key x = c
      · have hyc : ¬ key y = c := by rw [← hxc]; exact ne_of_gt hxy
        simp [List.filter_cons, hxc, hyc, ih]
      · simp [List.filter_cons, hxc, ih]

lemma insertionSort_filter_key {α : Type} (key : α → ℚ) (c : ℚ) :
    ∀ (l : List α),
    (l.insertionSort (keyGE key)).filter (fun a => key a = c) =
      l.filter (fun a => key a = c) := by
  intro l
  induction l with
  | nil => simp [List.insertionSort]
  | cons a l ih =>
    rw [List.insertionSort, orderedInsert_filter_key]
    by_cases hac : key a = c <;> simp [List.filter_cons, hac, ih]

lemma pairwise_fst_lt_enum {α : Type} (l : List α) :
    List.Pairwise (fun a b : Nat × α => a.1 < b.1) l.enum := by
  have h : List.Pairwise (· < ·) ((l.enum).map Prod.fst) := by
    rw [List.enum_map_fst]
    exact List.sorted_lt_range l.length
  exact List.pairwise_map.mp h

lemma pairwise_fst_lt_scoredCandidates (idx : SymbolIndex) (query : List Char)
    (kind : SymbolKind) :
    List.Pairwise (fun a b => a.1 < b.1) (scoredCandidates idx query kind) := by
  rw [scoredCandidates]
  rw [List.pairwise_filterMap]
  refine (pairwise_fst_lt_enum (idx.get_symbols kind)).imp ?_
  intro a b hab x hx y hy
  rw [Option.mem_def, Option.map_eq_some'] at hx hy
  obtain ⟨s1, _, rfl⟩ := hx
  obtain ⟨s2, _, rfl⟩ := hy
  exact hab

lemma allMatches_of_none {h : CompletionHandler} {ln : List Char} {character : Nat}
    (hq : parse_query h ln character = none) : allMatches h ln character = [] := by
  simp [allMatches, hq]

lemma allMatches_of_some_ne {h : CompletionHandler} {ln : List Char} {character : Nat}
    {q : List Char} (hq : parse_query h ln character = some q) (hne : q ≠ []) :
    allMatches h ln character =
      (List.insertionSort (keyGE Prod.snd)
        (h.symbol_kinds.flatMap (fun k =>
          h.symbol_index.fuzzy_search q k h.config.max_completion_items
            h.config.min_fuzzy_score))).take h.config.max_completion_items := by
  simp only [allMatches, hq]
  rw [if_neg hne]

lemma allMatches_of_some_nil {h : CompletionHandler} {ln : List Char} {character : Nat}
    (hq : parse_query h ln character = some []) :
    allMatches h ln character =
      ((h.symbol_kinds.flatMap (fun k => h.symbol_index.get_symbols k)).map
        (fun s => (s, (0 : ℚ)))).take h.config.max_completion_items := by
  simp [allMatches, hq]

lemma mem_scoredCandidates {idx : SymbolIndex} {query : List Char} {kind : SymbolKind}
    {t : Nat × Symbol × ℚ} (ht : t ∈ scoredCandidates idx query kind) :
    (idx.get_symbols kind)[t.1]? = some t.2.1 ∧
      fuzzy_score query t.2.1.name.data = some t.2.2 := by
  rw [scoredCandidates, List.mem_filterMap] at ht
  obtain ⟨p, hp, hmap⟩ := ht
  rw [Option.map_eq_some'] at hmap
  obtain ⟨sc, hsc, rfl⟩ := hmap
  rw [List.mem_enum_iff_getElem?] at hp
  exact ⟨hp, hsc⟩

lemma get_symbols_kind {idx : SymbolIndex} (hWF : idx.WF) {kind : SymbolKind}
    {s : Symbol} (hs : s ∈ idx.get_symbols kind) : s.kind = kind := by
  rw [SymbolIndex.get_symbols, List.mem_map] at hs
  obtain ⟨e, he, rfl⟩ := hs
  exact hWF kind e he

/-- Claim C2: `fuzzy_search` returns only symbols of the requested kind whose name
fuzzy-matches the query, with scores at or above `min_score`, at most `limit`
of them, sorted by non-increasing score, ties broken by the position at which
the symbol was inserted into the kind's collection (earlier first). -/
theorem fuzzy_search_filters_sorts_truncates (idx : SymbolIndex) (hWF : idx.WF)
    (query : List Char) (kind : SymbolKind) (limit : Nat) (min_score : ℚ) :
    idx.fuzzy_search query kind limit min_score =
      (fuzzySearchRanked idx query kind limit min_score).map (fun t => t.2)
    ∧ (fuzzySearchRanked idx query kind limit min_score).length ≤ limit
    ∧ (∀ t ∈ fuzzySearchRanked idx query kind limit min_score,
        t.2.1.kind = kind ∧ fuzzy_score query t.2.1.name.data = some t.2.2 ∧
          min_score ≤ t.2.2 ∧ (idx.get_symbols kind)[t.1]? = some t.2.1)
    ∧ List.Pairwise (rankedRel (fun t => t.2.2) (fun t => t.1))
        (fuzzySearchRanked idx query kind limit min_score) := by
  refine ⟨rfl, ?_, ?_, ?_⟩
  · rw [fuzzySearchRanked]
    exact List.length_take_le _ _
  · intro t ht
    rw [fuzzySearchRanked] at ht
    have ht1 := List.take_subset _ _ ht
    rw [List.mem_insertionSort] at ht1
    have hmin : min_score ≤ t.2.2 := by
      have := List.of_mem_filter ht1
      simpa using this
    have ht2 := List.mem_of_mem_filter ht1
    obtain ⟨hget, hscore⟩ := mem_scoredCandidates ht2
    exact ⟨get_symbols_kind hWF (List.getElem?_mem hget), hscore, hmin, hget⟩
  · rw [fuzzySearchRanked]
    apply List.Pairwise.sublist (List.take_sublist _ _)
    apply insertionSort_rankedRel
    exact (pairwise_fst_lt_scoredCandidates idx query kind).filter _

/-- Claim C1: for a parsed non-empty query, `get_completions` concatenates the
per-kind `fuzzy_search` results (run with the configured `min_fuzzy_score`
and `max_completion_items` as the per-kind limit), stably sorts the
concatenation by descending score, truncates it to `max_completion_items`,
and renders each kept pair through `_to_completion_item`. -/
theorem get_completions_runs_fuzzy_search_per_kind (h : CompletionHandler)
    (ln : List Char) (character : Nat) (q : List Char)
    (hq : parse_query h ln character = some q) (hne : q ≠ []) :
    allMatches h ln character =
      (List.insertionSort (keyGE Prod.snd)
        (h.symbol_kinds.flatMap (fun k =>
          h.symbol_index.fuzzy_search q k h.config.max_completion_items
            h.config.min_fuzzy_score))).take h.config.max_completion_items
    ∧ get_completions h ln character =
        (allMatches h ln character).map (fun p => to_completion_item h p.1 p.2)
    ∧ (allMatches h ln character).length ≤ h.config.max_completion_items
    ∧ List.Pairwise (fun a b : Symbol × ℚ => b.2 ≤ a.2) (allMatches h ln character)
    ∧ ∀ p ∈ allMatches h ln character,
        p ∈ h.symbol_kinds.flatMap (fun k =>
          h.symbol_index.fuzzy_search q k h.config.max_completion_items
            h.config.min_fuzzy_score) := by
  have hall := allMatches_of_some_ne hq hne
  refine ⟨hall, rfl, ?_, ?_, ?_⟩
  · rw [hall]
    exact List.length_take_le _ _
  · rw [hall]
    apply List.Pairwise.sublist (List.take_sublist _ _)
    exact List.sorted_insertionSort (keyGE Prod.snd) _
  · intro p hp
    rw [hall] at hp
    exact (List.mem_insertionSort _).mp (List.take_subset _ _ hp)

/-- Claim C6: for a parsed empty query (trigger immediately at the cursor),
`get_completions` returns exactly `min(|eligible symbols|,
max_completion_items)` candidates, all carrying score 0, listed by
concatenating the eligible kinds in their declared order, each kind's symbols
in index insertion order. -/
theorem get_completions_empty_query_insertion_order (h : CompletionHandler)
    (ln : List Char) (character : Nat)
    (hq : parse_query h ln character = some []) :
    allMatches h ln character =
      ((h.symbol_kinds.flatMap (fun k => h.symbol_index.get_symbols k)).map
        (fun s => (s, (0 : ℚ)))).take h.config.max_completion_items
    ∧ (allMatches h ln character).length =
        min (h.symbol_kinds.flatMap (fun k => h.symbol_index.get_symbols k)).length
          h.config.max_completion_items
    ∧ (∀ p ∈ allMatches h ln character, p.2 = 0)
    ∧ (allMatches h ln character).map Prod.fst =
        (h.symbol_kinds.flatMap (fun k => h.symbol_index.get_symbols k)).take
          h.config.max_completion_items := by
  have hall := allMatches_of_some_nil hq
  refine ⟨hall, ?_, ?_, ?_⟩
  · rw [hall, List.length_take, List.length_map]
    exact min_comm _ _
  · intro p hp
    rw [hall] at hp
    have := List.take_subset _ _ hp
    rw [List.mem_map] at this
    obtain ⟨s, _, rfl⟩ := this
    rfl
  · rw [hall, ← List.map_take, List.map_map]
    have : (Prod.fst ∘ fun s : Symbol => (s, (0 : ℚ))) = id := rfl
    rw [this, List.map_id]

/-- Claim C10: the stable descending-score sort inside `get_completions` preserves
the relative order of equal-scored candidates: filtering the sorted
concatenation to any fixed score gives exactly the same-score candidates in
concatenation order — earlier-declared kinds first, and within one kind the
`fuzzy_search` order; `get_completions` then takes a prefix of that sorted
list. -/
theorem sort_preserves_equal_score_order (h : CompletionHandler)
    (ln : List Char) (character : Nat) (q : List Char) (c : ℚ)
    (hq : parse_query h ln character = some q) (hne : q ≠ []) :
    ((List.insertionSort (keyGE Prod.snd)
        (h.symbol_kinds.flatMap (fun k =>
          h.symbol_index.fuzzy_search q k h.config.max_completion_items
            h.config.min_fuzzy_score))).filter (fun p => p.2 = c) =
      (h.symbol_kinds.flatMap (fun k =>
          h.symbol_index.fuzzy_search q k h.config.max_completion_items
            h.config.min_fuzzy_score)).filter (fun p => p.2 = c))
    ∧ allMatches h ln character =
        (List.insertionSort (keyGE Prod.snd)
          (h.symbol_kinds.flatMap (fun k =>
            h.symbol_index.fuzzy_search q k h.config.max_completion_items
              h.config.min_fuzzy_score))).take h.config.max_completion_items := by
  exact ⟨insertionSort_filter_key Prod.snd c _, allMatches_of_some_ne hq hne⟩

lemma pyInt_eq {a : ℚ} (ha : 0 ≤ a) : pyInt a = ((a.num.toNat / a.den : Nat) : Int) := by
  have hnum : 0 ≤ a.num := Rat.num_nonneg.mpr ha
  rw [pyInt, ← Int.toNat_of_nonneg hnum]
  rfl

lemma pyInt_nonneg {a : ℚ} (ha : 0 ≤ a) : 0 ≤ pyInt a := by
  rw [pyInt_eq ha]
  exact_mod_cast Nat.zero_le _

lemma pyInt_le_of_le {a b : ℚ} (ha : 0 ≤ a) (hab : a ≤ b) : pyInt a ≤ pyInt b := by
  have hb : 0 ≤ b := le_trans ha hab
  rw [pyInt_eq ha, pyInt_eq hb]
  have h1 : 0 ≤ a.num := Rat.num_nonneg.mpr ha
  have h2 : 0 ≤ b.num := Rat.num_nonneg.mpr hb
  have hcross : a.num * (b.den : Int) ≤ b.num * (a.den : Int) := Rat.le_def.mp hab
  have hnn : a.num.toNat * b.den ≤ b.num.toNat * a.den := by
    have e1 : ((a.num.toNat * b.den : Nat) : Int) ≤ ((b.num.toNat * a.den : Nat) : Int) := by
      push_cast
      rw [Int.toNat_of_nonneg h1, Int.toNat_of_nonneg h2]
      exact hcross
    exact_mod_cast e1
  have had : 0 < a.den := a.pos
  have hbd : 0 < b.den := b.pos
  have hdiv : a.num.toNat / a.den ≤ b.num.toNat / b.den := by
    rw [Nat.le_div_iff_mul_le hbd]
    have h3 : (a.num.toNat / a.den) * a.den ≤ a.num.toNat := Nat.div_mul_le_self _ _
    have h4 : (a.num.toNat / a.den) * b.den * a.den ≤ b.num.toNat * a.den := by
      calc (a.num.toNat / a.den) * b.den * a.den
          = (a.num.toNat / a.den) * a.den * b.den := by ring
        _ ≤ a.num.toNat * b.den := Nat.mul_le_mul_right _ h3
        _ ≤ b.num.toNat * a.den := hnn
    exact Nat.le_of_mul_le_mul_right h4 had
  exact_mod_cast hdiv

lemma pyInt_le_hundred {a : ℚ} (ha : 0 ≤ a) (h100 : a ≤ 100) : pyInt a ≤ 100 := by
  have := pyInt_le_of_le ha h100
  have h : pyInt (100 : ℚ) = 100 := by with_unfolding_all decide
  omega

set_option maxRecDepth 4000 in
lemma format03d_succ_le : ∀ a : Nat, a < 100 →
    (format03d (Int.ofNat a)).data ≤ (format03d (Int.ofNat (a + 1))).data := by decide

lemma format03d_add_le : ∀ (d a : Nat), a + d ≤ 100 →
    (format03d (Int.ofNat a)).data ≤ (format03d (Int.ofNat (a + d))).data := by
  intro d
  induction d with
  | zero => intro a _; exact le_refl _
  | succ d ih =>
    intro a hle
    have h1 := ih a (by omega)
    have h2 := format03d_succ_le (a + d) (by omega)
    have h3 : a + (d + 1) = (a + d) + 1 := by omega
    rw [h3]
    exact le_trans h1 h2

lemma format03d_le_of_le {m n : Int} (h0 : 0 ≤ m) (hmn : m ≤ n) (hn : n ≤ 100) :
    (format03d m).data ≤ (format03d n).data := by
  obtain ⟨a, rfl⟩ := Int.eq_ofNat_of_zero_le h0
  obtain ⟨b, rfl⟩ := Int.eq_ofNat_of_zero_le (le_trans h0 hmn)
  have hab : a ≤ b := by exact_mod_cast hmn
  have hb : b ≤ 100 := by exact_mod_cast hn
  have hsplit : b = a + (b - a) := by omega
  rw [hsplit]
  exact format03d_add_le (b - a) a (by omega)

lemma allMatches_score_bounds (h : CompletionHandler) (ln : List Char)
    (character : Nat) : ∀ p ∈ allMatches h ln character, 0 ≤ p.2 ∧ p.2 ≤ 100 := by
  intro p hp
  cases hq : parse_query h ln character with
  | none => rw [allMatches_of_none hq] at hp; simp at hp
  | some q =>
    by_cases hqe : q = []
    · subst hqe
      rw [allMatches_of_some_nil hq] at hp
      have hmem := List.take_subset _ _ hp
      rw [List.mem_map] at hmem
      obtain ⟨s, _, rfl⟩ := hmem
      norm_num
    · rw [allMatches_of_some_ne hq hqe] at hp
      have h1 := (List.mem_insertionSort _).mp (List.take_subset _ _ hp)
      rw [List.mem_flatMap] at h1
      obtain ⟨k, _, h2⟩ := h1
      rw [SymbolIndex.fuzzy_search, List.mem_map] at h2
      obtain ⟨t, h3, rfl⟩ := h2
      rw [fuzzySearchRanked] at h3
      have h4 := (List.mem_insertionSort _).mp (List.take_subset _ _ h3)
      have h5 := List.mem_of_mem_filter h4
      obtain ⟨_, hscore⟩ := mem_scoredCandidates h5
      exact fuzzy_score_bounds hscore

/-- Claim C9: among the candidates of one `get_completions` call, a strictly higher
score yields a sort key that is lexicographically at most the other's, so a
host-side stable lexical sort by `sort_text` reproduces the engine's
ordering. -/
theorem higher_score_gives_le_sort_text (h : CompletionHandler) (ln : List Char)
    (character : Nat) :
    ∀ p ∈ allMatches h ln character, ∀ r ∈ allMatches h ln character, r.2 < p.2 →
      (to_completion_item h p.1 p.2).sort_text.data ≤
        (to_completion_item h r.1 r.2).sort_text.data := by
  intro p hp r hr hlt
  obtain ⟨hp0, hp100⟩ := allMatches_score_bounds h ln character p hp
  obtain ⟨hr0, hr100⟩ := allMatches_score_bounds h ln character r hr
  show (format03d (100 - pyInt p.2)).data ≤ (format03d (100 - pyInt r.2)).data
  apply format03d_le_of_le
  · have := pyInt_le_hundred hp0 hp100
    omega
  · have := pyInt_le_of_le hr0 (le_of_lt hlt)
    omega
  · have := pyInt_nonneg hr0
    omega

set_option maxHeartbeats 1600000 in
/-- Witness for the C2 theorem at a concrete index, query and kind. -/
theorem fuzzy_search_filters_sorts_truncates_witness :
    wIdx.WF ∧
      ((0, (⟨"utils.py", .FILE, "/tmp/utils.py", 1, none, none⟩ : Symbol), (100 : ℚ)) ∈
        fuzzySearchRanked wIdx ("util".data) SymbolKind.FILE 50 30) ∧
      ((⟨"utils.py", .FILE, "/tmp/utils.py", 1, none, none⟩ : Symbol).kind = SymbolKind.FILE ∧
        fuzzy_score ("util".data)
          (⟨"utils.py", .FILE, "/tmp/utils.py", 1, none, none⟩ : Symbol).name.data =
            some (100 : ℚ) ∧
        (30 : ℚ) ≤ (100 : ℚ) ∧
        (wIdx.get_symbols SymbolKind.FILE)[(0 : Nat)]? =
          some ⟨"utils.py", .FILE, "/tmp/utils.py", 1, none, none⟩) :=
  ⟨by unfold SymbolIndex.WF; decide, by with_unfolding_all decide,
    (fuzzy_search_filters_sorts_truncates wIdx (by unfold SymbolIndex.WF; decide)
      ("util".data) SymbolKind.FILE 50 30).2.2.1
      (0, ⟨"utils.py", .FILE, "/tmp/utils.py", 1, none, none⟩, (100 : ℚ))
      (by with_unfolding_all decide)⟩

/-- Witness for the C1 theorem at a concrete handler, line and cursor. -/
theorem get_completions_runs_fuzzy_search_per_kind_witness :
    (parse_query wFile ("@util".data) 5 = some ("util".data)) ∧
      ("util".data ≠ ([] : List Char)) ∧
      (allMatches wFile ("@util".data) 5).length ≤ 50 :=
  ⟨by decide, by decide,
    (get_completions_runs_fuzzy_search_per_kind wFile ("@util".data) 5 ("util".data)
      (by decide) (by decide)).2.2.1⟩

set_option maxHeartbeats 800000 in
/-- Witness for the C6 theorem: the `#` handler with eligible kinds
METHOD then FUNCTION lists the METHOD symbol first even though the FUNCTION
symbol was inserted earlier. -/
theorem get_completions_empty_query_insertion_order_witness :
    (parse_query wMethod ("#".data) 1 = some []) ∧
      (allMatches wMethod ("#".data) 1).map Prod.fst =
        [⟨"save_data", .METHOD, "/tmp/db.py", 25, none, none⟩,
         ⟨"my_function", .FUNCTION, "/tmp/utils.py", 20, none, none⟩] :=
  ⟨by decide, by
    rw [(get_completions_empty_query_insertion_order wMethod ("#".data) 1 (by decide)).2.2.2]
    decide⟩

/-- Witness for the C10 theorem at a concrete handler, line and cursor. -/
theorem sort_preserves_equal_score_order_witness :
    (parse_query wFile ("@util".data) 5 = some ("util".data)) ∧
      allMatches wFile ("@util".data) 5 =
        (List.insertionSort (keyGE Prod.snd)
          (wFile.symbol_kinds.flatMap (fun k =>
            wFile.symbol_index.fuzzy_search ("util".data) k
              wFile.config.max_completion_items wFile.config.min_fuzzy_score))).take
          wFile.config.max_completion_items :=
  ⟨by decide, (sort_preserves_equal_score_order wFile ("@util".data) 5 ("util".data) 0
    (by decide) (by decide)).2⟩

set_option maxHeartbeats 1600000 in
/-- Witness for the C9 theorem: two concrete candidates of one call with
distinct scores and their sort keys. -/
theorem higher_score_gives_le_sort_text_witness :
    ((⟨"utils.py", .FILE, "/tmp/utils.py", 1, none, none⟩, (100 : ℚ)) ∈
        allMatches wFile ("@util".data) 5) ∧
      ((⟨"u_t_i_l_x.py", .FILE, "/tmp/u_t_i_l_x.py", 1, none, none⟩, (320 / 7 : ℚ)) ∈
        allMatches wFile ("@util".data) 5) ∧
      ((320 / 7 : ℚ) < 100) ∧
      (to_completion_item wFile ⟨"utils.py", .FILE, "/tmp/utils.py", 1, none, none⟩
          (100 : ℚ)).sort_text.data ≤
        (to_completion_item wFile
          ⟨"u_t_i_l_x.py", .FILE, "/tmp/u_t_i_l_x.py", 1, none, none⟩
          (320 / 7 : ℚ)).sort_text.data := by
  have m1 : ((⟨"utils.py", .FILE, "/tmp/utils.py", 1, none, none⟩ : Symbol), (100 : ℚ)) ∈
      allMatches wFile ("@util".data) 5 := by with_unfolding_all decide
  have m2 : ((⟨"u_t_i_l_x.py", .FILE, "/tmp/u_t_i_l_x.py", 1, none, none⟩ : Symbol),
      (320 / 7 : ℚ)) ∈ allMatches wFile ("@util".data) 5 := by with_unfolding_all decide
  have hlt : (320 / 7 : ℚ) < 100 := by with_unfolding_all decide
  exact ⟨m1, m2, hlt,
    higher_score_gives_le_sort_text wFile ("@util".data) 5 _ m1 _ m2 hlt⟩

end Triggerfish
